import Mathlib

/-!
Verification of the RoPADet glue code.

Shallow embedding of the two source files of the repository:

* `examples/wav2vec/profiles_gen.py` — the profile generator: a custom
  collation step (`collate_fn`), the per-identifier accumulation of
  embedding vectors (`profiles`), the final mean reduction, and the
  computation of the output path (`SAVE_PATH`).
* `fairseq/criterions/cross_entropy.py` — the criterion extension:
  `compute_loss` (class-weighted negative log-likelihood, optionally fused
  with the auxiliary reconstruction/contrastive terms), `forward`,
  `reduce_metrics` and `logging_outputs_can_be_summed`.

Tensors of floats are modelled as (lists of) rationals; fallible tensor
operations (shape mismatches, out-of-range indexing, tuple unpacking)
return `Option`.  Functions of the external training framework that are
not part of this repository (`model.get_normalized_probs`, `F.softmax`,
`SupConLoss`) are taken as parameters of the embedded functions.
-/

set_option autoImplicit false

namespace RoPADet

universe u v

variable {α : Type u} {β : Type v}

/-- Applies a fallible function to every element of a list, failing as a
whole when one application fails.  This mirrors a Python loop over a list
whose body may raise: the result exists only when every iteration
succeeds. -/
def mapOption (f : α → Option β) : List α → Option (List β)
  | [] => some []
  | a :: as =>
    match f a, mapOption f as with
    | some b, some bs => some (b :: bs)
    | _, _ => none

/-! ## Profile accumulation (`profiles_gen.py`, lines 132–160)

The generation loop runs with batch size 1 and executes
`profiles[ids[0]].append(outputs)` once per observation, where `outputs`
is the time-averaged embedding vector of the observation.  The
`defaultdict(list)` is modelled as a function from identifiers to the
list of vectors appended so far. -/

/-- One step of the generation loop: append the observation's embedding
vector to the entry of its identifier (`profiles[ids[0]].append(outputs)`). -/
def addObs (m : String → List (List ℚ)) (o : String × List ℚ) : String → List (List ℚ) :=
  fun k => if o.1 = k then m k ++ [o.2] else m k

/-- The accumulated `profiles` mapping after the generation loop has
consumed the whole observation stream (`defaultdict(list)` start). -/
def profilesAcc (obs : List (String × List ℚ)) : String → List (List ℚ) :=
  obs.foldl addObs (fun _ => [])

/-- Elementwise sum of a nonempty list of vectors, as computed by
`torch.stack(val)` followed by a sum over the stacking dimension.  (On an
empty list `torch.stack` raises; the final pass only visits identifiers
with at least one accumulated vector.) -/
def vecSum : List (List ℚ) → List ℚ
  | [] => []
  | [v] => v
  | v :: w :: rest => List.zipWith (· + ·) v (vecSum (w :: rest))

/-- `torch.mean(torch.stack(val), dim=0)`: the elementwise mean of the
accumulated vectors. -/
def vecMean (l : List (List ℚ)) : List ℚ :=
  (vecSum l).map (fun x => x / (l.length : ℚ))

/-- The profile stored for identifier `k` at the end of the final pass
(`profiles[key] = torch.mean(torch.stack(val), dim=0)`): `none` when the
identifier never occurred. -/
def profileFinal (obs : List (String × List ℚ)) (k : String) : Option (List ℚ) :=
  let l := profilesAcc obs k
  if l = [] then none else some (vecMean l)

/-- The sample identifier of the worked example of the spec. -/
def idA : String := "A"

/-! ## The collation step (`profiles_gen.py`, lines 23–44)

A NumPy 2-D feature array of shape `(n_rows, cols)` is a rectangular list
of rows of rationals. -/

/-- A 2-D NumPy array: `rows.length` is `shape[0]`, `cols` is `shape[1]`,
and rectangularity is part of being an array. -/
structure NpArray2D where
  rows : List (List ℚ)
  cols : ℕ
  rect : ∀ r ∈ rows, r.length = cols

/-- One element of the list handed to `collate_fn`: the tuple
`(id, example, label, length)` as produced by `MyDataset.__getitem__`. -/
structure Item where
  id : String
  x : NpArray2D
  y : ℤ
  len : ℕ

/-- `MyDataset.__getitem__`: returns `(id, x, y, x.shape[1])`. -/
def getItem (e : String × NpArray2D × ℤ) : Item :=
  { id := e.1, x := e.2.1, y := e.2.2, len := e.2.1.cols }

/-- `max_len = max(lengths)` over the batch (Python `max` of a nonempty
tuple of naturals; the fold base 0 is absorbed). -/
def maxLen (data : List Item) : ℕ :=
  (data.map Item.len).foldl Nat.max 0

/-- The body of the per-example loop of `collate_fn` for example `d`:
`features[i] = torch.cat([torch.from_numpy(data[i][1]), torch.zeros((j, max_len - k))], dim=1)`
together with `lengths[i][:k] = 1`.  The concatenation raises when
`max_len - k` is negative, and the assignment into `features[i]` raises
unless the concatenated tensor has shape `(n_ftrs, max_len)`, i.e. unless
`j = n_ftrs`; both error branches are `none`. -/
def padExample (n_ftrs max_len : ℕ) (d : Item) : Option (List (List ℚ) × List ℕ) :=
  let j := d.x.rows.length
  let k := d.x.cols
  if j = n_ftrs ∧ k ≤ max_len then
    some (d.x.rows.map (fun r => r ++ List.replicate (max_len - k) 0),
          List.replicate k 1 ++ List.replicate (max_len - k) 0)
  else none

/-- The value returned by `collate_fn`:
`(ids, features.float(), labels.long(), lengths.long())`. -/
structure CollateOut where
  ids : List String
  features : List (List (List ℚ))
  labels : List ℤ
  mask : List (List ℕ)

/-- `collate_fn` (`profiles_gen.py`): zero-pads every example of the batch
to the maximum length of the batch and builds the validity mask.  On an
empty batch `max(())` raises; per-example errors propagate from
`padExample`. -/
def collate_fn (data : List Item) : Option CollateOut :=
  match data with
  | [] => none
  | d0 :: _ =>
    let max_len := maxLen data
    let n_ftrs := d0.x.rows.length
    (mapOption (padExample n_ftrs max_len) data).map (fun padded =>
      { ids := data.map Item.id
        features := padded.map Prod.fst
        labels := data.map Item.y
        mask := padded.map Prod.snd })

/-- A concrete 2×2 feature array for the collation witnesses. -/
def arrA : NpArray2D := ⟨[[1, 2], [3, 4]], 2, by decide⟩

/-- A concrete 2×3 feature array for the collation witnesses. -/
def arrB : NpArray2D := ⟨[[5, 6, 7], [8, 9, 10]], 3, by decide⟩

/-- A collation witness batch, as produced by `MyDataset`. -/
def batchW : List Item := [getItem ("u1", arrA, 0), getItem ("u2", arrB, 1)]

/-- The collated output of the witness batch. -/
def outW : CollateOut :=
  { ids := ["u1", "u2"]
    features := [[[1, 2, 0], [3, 4, 0]], [[5, 6, 7], [8, 9, 10]]]
    labels := [0, 1]
    mask := [[1, 1, 0], [1, 1, 1]] }

/-! ## The criterion (`cross_entropy.py`)

`model.get_normalized_probs` and `F.softmax` belong to the external
framework and are passed as parameters; the model's raw output
`net_output` is either a plain logit matrix or, in the auxiliary
encoder-contrastive mode, the 5-tuple destructured by `compute_loss`. -/

/-- The model's raw output: a plain logits matrix, or the 5-tuple
`(ae_input, ae_hidden_output, cnn_hidden_output, ae_output, net_output)`
produced in the auxiliary encoder-contrastive mode. -/
inductive NetOutput where
  | plain (logits : List (List ℚ))
  | withAux (ae_input ae_hidden cnn_hidden ae_output : List ℚ)
      (logits : List (List ℚ))

/-- The fixed class-weight vector `torch.tensor([1.0, 7.0])`. -/
def nllWeight : List ℚ := [1, 7]

/-- `F.nll_loss(lprobs, target, reduction="sum", weight=w)`: the sum over
the batch of `-w[target_i] * lprobs[i][target_i]`.  Fails when the number
of targets differs from the number of rows or when a target indexes
outside its row or outside the weight vector. -/
def nll_loss_sum (lprobs : List (List ℚ)) (target : List ℕ) (w : List ℚ) : Option ℚ :=
  if target.length = lprobs.length then
    (mapOption
        (fun pr =>
          if pr.2 < pr.1.length ∧ pr.2 < w.length then
            some (w.getD pr.2 0 * (-(pr.1.getD pr.2 0)))
          else none)
        (List.zip lprobs target)).map List.sum
  else none

/-- `torch.nn.MSELoss()(a, b)`: mean squared elementwise difference. -/
def mseLoss (a b : List ℚ) : ℚ :=
  ((List.zipWith (fun x y => (x - y) ^ 2) a b).sum) / (a.length : ℚ)

/-- `lprobs.argmax(dim=1)` on one row: index of the first maximal entry. -/
def argmaxIdx : List ℚ → ℕ
  | [] => 0
  | [_] => 0
  | x :: y :: rest =>
    let j := argmaxIdx (y :: rest)
    if x < (y :: rest).getD j 0 then j + 1 else 0

/-- `CrossEntropyCriterion.compute_loss` with `reduce=True` (the only mode
`forward` uses).  `get_normalized_probs` is the model's log-softmax
(external framework code); `supCon` is `SupConLoss()` applied to the two
stacked hidden representations (external `fairseq.EncoderContrastive`
code).  Returns the loss and `(preds, target)`.  When the
encoder-contrastive flag disagrees with the shape of the model output,
tuple destructuring (resp. normalization of a tuple) raises: `none`. -/
def compute_loss (get_normalized_probs : List (List ℚ) → List (List ℚ))
    (supCon : List ℚ → List ℚ → ℚ) (encoder_contrastive : Bool)
    (net_output : NetOutput) (target : List ℕ) :
    Option (ℚ × (List ℕ × List ℕ)) :=
  match encoder_contrastive, net_output with
  | false, NetOutput.plain logits =>
    let lprobs := get_normalized_probs logits
    (nll_loss_sum lprobs target nllWeight).map (fun loss =>
      (loss, lprobs.map argmaxIdx, target))
  | true, NetOutput.withAux ae_input ae_hidden cnn_hidden ae_output logits =>
    let lprobs := get_normalized_probs logits
    (nll_loss_sum lprobs target nllWeight).map (fun loss =>
      (mseLoss ae_output ae_input + loss + (5 / 10000 : ℚ) * supCon ae_hidden cnn_hidden,
       lprobs.map argmaxIdx, target))
  | _, _ => none

/-- The extraction of `predicts` in `forward`:
`raw_predicts.squeeze()[1]` wrapped in a singleton list when the batch has
exactly one row, else `raw_predicts[:, 1].squeeze().tolist()`.  Indexing
column 1 raises when a row has fewer than two entries. -/
def extractPredicts (raw : List (List ℚ)) : Option (List ℚ) :=
  match raw with
  | [row] => if 1 < row.length then some [row.getD 1 0] else none
  | _ =>
    if raw.all (fun row => decide (1 < row.length)) then
      some (raw.map (fun row => row.getD 1 0))
    else none

/-- The logging dictionary built by `forward`. -/
structure LoggingOutput where
  loss : ℚ
  ntokens : ℕ
  nsentences : ℕ
  sample_size : ℕ
  ncorrect : ℕ
  predicts : List ℚ
  targets : List ℕ

/-- `CrossEntropyCriterion.forward` (with `reduce=True`): computes the
loss, the sample size, and the logging output.  `softmax` is `F.softmax`
along `dim=1` (external); in the auxiliary mode `net_output` is still the
5-tuple here, so `F.softmax(net_output, dim=1)` raises: `none`. -/
def forward (get_normalized_probs softmax : List (List ℚ) → List (List ℚ))
    (supCon : List ℚ → List ℚ → ℚ) (sentence_avg encoder_contrastive : Bool)
    (net_output : NetOutput) (target : List ℕ) (ntokens : ℕ) :
    Option (ℚ × ℕ × LoggingOutput) :=
  match compute_loss get_normalized_probs supCon encoder_contrastive net_output target with
  | none => none
  | some (loss, preds, tgt) =>
    let sample_size := if sentence_avg then target.length else ntokens
    match net_output with
    | NetOutput.withAux _ _ _ _ _ => none
    | NetOutput.plain logits =>
      match extractPredicts (softmax logits) with
      | none => none
      | some predicts =>
        some (loss, sample_size,
          { loss := loss
            ntokens := ntokens
            nsentences := target.length
            sample_size := sample_size
            ncorrect := (List.zip preds tgt).countP (fun pr => pr.1 == pr.2)
            predicts := predicts
            targets := tgt })

/-! ## Metric aggregation (`cross_entropy.py`, `reduce_metrics`) -/

/-- The metric key named loss. -/
def lossKey : String := "loss"

/-- The metric key named nll_loss. -/
def nllLossKey : String := "nll_loss"

/-- The metric key named ppl. -/
def pplKey : String := "ppl"

/-- The metric key named accuracy. -/
def accuracyKey : String := "accuracy"

/-- One logging record as consumed by `reduce_metrics`; every field read
there via `log.get(name, 0)` (the `predicts`/`targets` entries of the
forward pass are unused by the live code of `reduce_metrics`). -/
structure LogRecord where
  loss : ℚ
  ntokens : ℕ
  sample_size : ℕ
  ncorrect : ℕ
  nsentences : ℕ

/-- An event recorded against the external metrics registry: either
`metrics.log_scalar(name, value, weight, round=3)` or
`metrics.log_derived(name, fn)` where `fn` reads the average of the meter
called `source` (the perplexity lambda). -/
inductive MetricEvent where
  | scalar (name : String) (value : ℚ) (weight : ℚ)
  | derived (name : String) (source : String)
deriving DecidableEq

/-- `CrossEntropyCriterion.reduce_metrics`, as the list of events it
issues to the metrics registry, in order.  `ln2` stands for the float
constant `math.log(2)`. -/
def reduce_metrics (ln2 : ℚ) (logs : List LogRecord) : List MetricEvent :=
  let loss_sum := (logs.map LogRecord.loss).sum
  let ntokens := (logs.map LogRecord.ntokens).sum
  let sample_size := (logs.map LogRecord.sample_size).sum
  let ncorrect := (logs.map LogRecord.ncorrect).sum
  let nsentences := (logs.map LogRecord.nsentences).sum
  [MetricEvent.scalar lossKey (loss_sum / (sample_size : ℚ) / ln2) (sample_size : ℚ)]
    ++ (if sample_size ≠ ntokens then
          [MetricEvent.scalar nllLossKey (loss_sum / (ntokens : ℚ) / ln2) (ntokens : ℚ),
           MetricEvent.derived pplKey nllLossKey]
        else [MetricEvent.derived pplKey lossKey])
    ++ [MetricEvent.scalar accuracyKey (100 * (ncorrect : ℚ) / (nsentences : ℚ)) (nsentences : ℚ)]

/-- `CrossEntropyCriterion.logging_outputs_can_be_summed`. -/
def logging_outputs_can_be_summed : Bool := false

/-! ## The output path (`profiles_gen.py`, lines 162–166)

`SAVE_PATH = args.path[:args.path.rfind('/')] + '/profile.pt'`.  Strings
are modelled as lists of characters, with Python's `str.rfind` (last
occurrence, `-1` when absent) and slice semantics (a negative stop counts
from the end, clamped at zero). -/

/-- Python `s.rfind(c)`: the highest index of `c` in `s`, or `-1`. -/
def pyRfind (c : Char) : List Char → Int
  | [] => -1
  | a :: rest =>
    let r := pyRfind c rest
    if 0 ≤ r then r + 1 else if a = c then 0 else -1

/-- The filename appended to the checkpoint directory. -/
def profileFileName : String := "/profile.pt"

/-- Python `s[:i]`: a nonnegative stop takes an initial segment, a negative stop
counts from the end of the string (clamped at zero by `List.take`). -/
def pySliceTo (s : List Char) (i : Int) : List Char :=
  if 0 ≤ i then s.take i.toNat else s.take (s.length - (-i).toNat)

/-- `SAVE_PATH = args.path[:args.path.rfind('/')] + '/profile.pt'`. -/
def SAVE_PATH (path : List Char) : List Char :=
  pySliceTo path (pyRfind '/' path) ++ profileFileName.data

/-! ## Generic facts about `mapOption` -/

theorem mapOption_length {f : α → Option β} :
    ∀ {l : List α} {ys : List β}, mapOption f l = some ys → ys.length = l.length := by
  intro l
  induction l with
  | nil => intro ys h; simp [mapOption] at h; simp [← h]
  | cons a as ih =>
    intro ys h
    simp only [mapOption] at h
    cases hfa : f a with
    | none => rw [hfa] at h; exact absurd h (by simp)
    | some b =>
      rw [hfa] at h
      cases hrest : mapOption f as with
      | none => rw [hrest] at h; exact absurd h (by simp)
      | some bs =>
        rw [hrest] at h
        simp at h
        subst h
        simp [ih hrest]

theorem mapOption_getElem {f : α → Option β} :
    ∀ {l : List α} {ys : List β}, mapOption f l = some ys →
      ∀ (i : ℕ) (a : α), l[i]? = some a → ∃ b, ys[i]? = some b ∧ f a = some b := by
  intro l
  induction l with
  | nil => intro ys _ i a ha; simp at ha
  | cons x as ih =>
    intro ys h i a ha
    simp only [mapOption] at h
    cases hfa : f x with
    | none => rw [hfa] at h; exact absurd h (by simp)
    | some b =>
      rw [hfa] at h
      cases hrest : mapOption f as with
      | none => rw [hrest] at h; exact absurd h (by simp)
      | some bs =>
        rw [hrest] at h
        simp at h
        subst h
        cases i with
        | zero =>
          simp at ha
          subst ha
          exact ⟨b, by simp, hfa⟩
        | succ j =>
          simp at ha ⊢
          exact ih hrest j a ha

theorem mapOption_cons {f : α → Option β} {a : α} {as : List α} {b : β} {bs : List β}
    (ha : f a = some b) (has : mapOption f as = some bs) :
    mapOption f (a :: as) = some (b :: bs) := by
  simp [mapOption, ha, has]

theorem mapOption_total {f : α → Option β} :
    ∀ {l : List α}, (∀ a ∈ l, ∃ b, f a = some b) → ∃ ys, mapOption f l = some ys := by
  intro l
  induction l with
  | nil => intro _; exact ⟨[], rfl⟩
  | cons a as ih =>
    intro h
    obtain ⟨b, hb⟩ := h a (by simp)
    obtain ⟨ys, hys⟩ := ih (fun x hx => h x (by simp [hx]))
    exact ⟨b :: ys, by simp [mapOption, hb, hys]⟩

theorem mapOption_mem {f : α → Option β} :
    ∀ {l : List α} {ys : List β}, mapOption f l = some ys →
      ∀ b ∈ ys, ∃ a ∈ l, f a = some b := by
  intro l
  induction l with
  | nil =>
    intro ys h b hb
    simp [mapOption] at h
    subst h
    simp at hb
  | cons a as ih =>
    intro ys h b hb
    simp only [mapOption] at h
    cases hfa : f a with
    | none => rw [hfa] at h; exact absurd h (by simp)
    | some b0 =>
      rw [hfa] at h
      cases hrest : mapOption f as with
      | none => rw [hrest] at h; exact absurd h (by simp)
      | some bs =>
        rw [hrest] at h
        simp at h
        subst h
        rcases List.mem_cons.mp hb with rfl | hb2
        · exact ⟨a, by simp, hfa⟩
        · obtain ⟨a2, ha2, hfa2⟩ := ih hrest b hb2
          exact ⟨a2, by simp [ha2], hfa2⟩


/-! ## Claims about the criterion: C8, C4, C6, C5, C2 -/

/-- C8: `logging_outputs_can_be_summed` returns `False` on every
invocation, so per-worker logging dictionaries must not be merged by
element-wise summation before `reduce_metrics`. -/
theorem logging_outputs_not_summable : logging_outputs_can_be_summed = false := rfl

/-- C4: the accuracy value logged by `reduce_metrics` equals
`100 * (sum of ncorrect) / (sum of nsentences)` over the logging
records, for any set of records. -/
theorem reduce_metrics_accuracy (ln2 : ℚ) (logs : List LogRecord) :
    MetricEvent.scalar accuracyKey
        (100 * (((logs.map LogRecord.ncorrect).sum : ℕ) : ℚ)
          / (((logs.map LogRecord.nsentences).sum : ℕ) : ℚ))
        (((logs.map LogRecord.nsentences).sum : ℕ) : ℚ)
      ∈ reduce_metrics ln2 logs := by
  simp [reduce_metrics]

/-- C6: when the summed `sample_size` differs from the summed `ntokens`,
`reduce_metrics` additionally logs an `nll_loss` metric normalized by
`ntokens` and derives perplexity from it; otherwise no `nll_loss` scalar
is logged and perplexity is derived from the primary `loss` metric. -/
theorem reduce_metrics_nll_branch (ln2 : ℚ) (logs : List LogRecord) :
    ((logs.map LogRecord.sample_size).sum ≠ (logs.map LogRecord.ntokens).sum →
      MetricEvent.scalar nllLossKey
          ((logs.map LogRecord.loss).sum / (((logs.map LogRecord.ntokens).sum : ℕ) : ℚ) / ln2)
          (((logs.map LogRecord.ntokens).sum : ℕ) : ℚ) ∈ reduce_metrics ln2 logs ∧
      MetricEvent.derived pplKey nllLossKey ∈ reduce_metrics ln2 logs) ∧
    ((logs.map LogRecord.sample_size).sum = (logs.map LogRecord.ntokens).sum →
      (∀ v w : ℚ, MetricEvent.scalar nllLossKey v w ∉ reduce_metrics ln2 logs) ∧
      MetricEvent.derived pplKey lossKey ∈ reduce_metrics ln2 logs) := by
  constructor
  · intro hne
    refine ⟨?_, ?_⟩ <;> simp [reduce_metrics, hne]
  · intro heq
    refine ⟨?_, ?_⟩
    · intro v w hmem
      simp [reduce_metrics, heq, lossKey, nllLossKey, pplKey, accuracyKey] at hmem
    · simp [reduce_metrics, heq]

/-- C5: with the auxiliary encoder-contrastive mode disabled, the loss
returned by `compute_loss` is exactly the class-weighted negative
log-likelihood classification term; the reconstruction and contrastive
terms contribute nothing (the result does not depend on the contrastive
loss function at all). -/
theorem compute_loss_no_aux (gnp : List (List ℚ) → List (List ℚ))
    (sc sc2 : List ℚ → List ℚ → ℚ) (logits : List (List ℚ)) (target : List ℕ)
    (l : ℚ) (pt : List ℕ × List ℕ)
    (h : compute_loss gnp sc false (NetOutput.plain logits) target = some (l, pt)) :
    nll_loss_sum (gnp logits) target nllWeight = some l ∧
    compute_loss gnp sc2 false (NetOutput.plain logits) target = some (l, pt) := by
  refine ⟨?_, h⟩
  simp only [compute_loss] at h
  cases hn : nll_loss_sum (gnp logits) target nllWeight with
  | none => rw [hn] at h; exact absurd h (by simp)
  | some a =>
    rw [hn] at h
    simp at h
    rw [h.1]

/-- Evaluating the pointwise negative-log-likelihood terms of
`F.nll_loss` when every target is the constant class `c`. -/
theorem nll_terms_replicate (w : List ℚ) (c : ℕ) (hc : c < w.length) :
    ∀ (L : List (List ℚ)), (∀ row ∈ L, c < row.length) →
      mapOption
          (fun pr =>
            if pr.2 < pr.1.length ∧ pr.2 < w.length then
              some (w.getD pr.2 0 * (-(pr.1.getD pr.2 0)))
            else none)
          (List.zip L (List.replicate L.length c))
        = some (L.map (fun row => w.getD c 0 * (-(row.getD c 0)))) := by
  intro L
  induction L with
  | nil => intro _; rfl
  | cons r rest ih =>
    intro h
    have hr : c < r.length := h r (by simp)
    have hrest := ih (fun x hx => h x (by simp [hx]))
    rw [List.length_cons, List.replicate_succ, List.zip_cons_cons, List.map_cons]
    exact mapOption_cons (by simp [hr, hc]) hrest

/-- `F.nll_loss` with summed reduction on constant targets of class `c`. -/
theorem nll_replicate (w : List ℚ) (c : ℕ) (hc : c < w.length)
    (L : List (List ℚ)) (hrows : ∀ row ∈ L, c < row.length) :
    nll_loss_sum L (List.replicate L.length c) w
      = some ((L.map (fun row => w.getD c 0 * (-(row.getD c 0)))).sum) := by
  unfold nll_loss_sum
  rw [if_pos (by simp), nll_terms_replicate w c hc L hrows]
  rfl

/-- C2: for two batches of the same size whose rows of per-class
log-probabilities are identical (the same value for class 0 and class 1),
`compute_loss` (auxiliary mode disabled, `reduce=True`) on the
all-minority-class batch returns exactly 7 times the loss it returns on
the all-majority-class batch. -/
theorem loss_weight_ratio (gnp : List (List ℚ) → List (List ℚ))
    (sc : List ℚ → List ℚ → ℚ) (logits : List (List ℚ))
    (hrows : ∀ row ∈ gnp logits, 1 < row.length)
    (heq : ∀ row ∈ gnp logits, row.getD 1 0 = row.getD 0 0) :
    ∃ lossMin lossMaj pMin pMaj,
      compute_loss gnp sc false (NetOutput.plain logits)
          (List.replicate (gnp logits).length 1) = some (lossMin, pMin) ∧
      compute_loss gnp sc false (NetOutput.plain logits)
          (List.replicate (gnp logits).length 0) = some (lossMaj, pMaj) ∧
      lossMin = 7 * lossMaj := by
  have h1 := nll_replicate nllWeight 1 (by decide) (gnp logits) hrows
  have h0 := nll_replicate nllWeight 0 (by decide) (gnp logits)
    (fun row hrow => Nat.lt_of_lt_of_le Nat.zero_lt_one (Nat.le_of_lt (hrows row hrow)))
  refine ⟨((gnp logits).map (fun row => nllWeight.getD 1 0 * (-(row.getD 1 0)))).sum,
          ((gnp logits).map (fun row => nllWeight.getD 0 0 * (-(row.getD 0 0)))).sum,
          ((gnp logits).map argmaxIdx, List.replicate (gnp logits).length 1),
          ((gnp logits).map argmaxIdx, List.replicate (gnp logits).length 0),
          ?_, ?_, ?_⟩
  · simp only [compute_loss, h1]; rfl
  · simp only [compute_loss, h0]; rfl
  · have key : ∀ (M : List (List ℚ)), (∀ row ∈ M, row.getD 1 0 = row.getD 0 0) →
        (M.map (fun row => nllWeight.getD 1 0 * (-(row.getD 1 0)))).sum
          = 7 * (M.map (fun row => nllWeight.getD 0 0 * (-(row.getD 0 0)))).sum := by
      intro M
      induction M with
      | nil => intro _; simp
      | cons r rest ihM =>
        intro hM
        have hr := hM r (by simp)
        have hrest := ihM (fun x hx => hM x (by simp [hx]))
        rw [List.map_cons, List.sum_cons, List.map_cons, List.sum_cons, hrest, hr]
        simp only [nllWeight, List.getD_cons_succ, List.getD_cons_zero]
        ring
    exact key (gnp logits) heq

/-- Witness for C6 at two concrete sets of logging records, one with
`sample_size ≠ ntokens` and one with `sample_size = ntokens`. -/
theorem reduce_metrics_nll_branch_witness :
    (MetricEvent.scalar nllLossKey
        ((List.map LogRecord.loss [⟨1, 2, 1, 1, 1⟩]).sum
          / (((List.map LogRecord.ntokens [⟨1, 2, 1, 1, 1⟩]).sum : ℕ) : ℚ) / 1)
        (((List.map LogRecord.ntokens [⟨1, 2, 1, 1, 1⟩]).sum : ℕ) : ℚ)
        ∈ reduce_metrics 1 [⟨1, 2, 1, 1, 1⟩] ∧
      MetricEvent.derived pplKey nllLossKey ∈ reduce_metrics 1 [⟨1, 2, 1, 1, 1⟩]) ∧
    (MetricEvent.scalar nllLossKey 0 0 ∉ reduce_metrics 1 [⟨1, 1, 1, 1, 1⟩] ∧
      MetricEvent.derived pplKey lossKey ∈ reduce_metrics 1 [⟨1, 1, 1, 1, 1⟩]) := by
  obtain ⟨hA, _⟩ := reduce_metrics_nll_branch 1 [⟨1, 2, 1, 1, 1⟩]
  obtain ⟨h1, h2⟩ := hA (by decide)
  obtain ⟨_, hB⟩ := reduce_metrics_nll_branch 1 [⟨1, 1, 1, 1, 1⟩]
  obtain ⟨h3, h4⟩ := hB (by decide)
  exact ⟨⟨h1, h2⟩, ⟨h3 0 0, h4⟩⟩

/-- Witness for C5 on a concrete single-example batch. -/
theorem compute_loss_no_aux_witness :
    nll_loss_sum [[-1, -2]] [1] nllWeight = some 14 ∧
    compute_loss id (fun _ _ => 1) false (NetOutput.plain [[-1, -2]]) [1]
      = some (14, [0], [1]) :=
  compute_loss_no_aux id (fun _ _ => 0) (fun _ _ => 1) [[-1, -2]] [1] 14 ([0], [1])
    (by norm_num [compute_loss, nll_loss_sum, mapOption, nllWeight, argmaxIdx])

/-- Witness for C2 on a concrete two-example batch with class-uniform
log-probabilities. -/
theorem loss_weight_ratio_witness :
    ∃ lossMin lossMaj pMin pMaj,
      compute_loss id (fun _ _ => 0) false (NetOutput.plain [[-1, -1], [-2, -2]])
          (List.replicate 2 1) = some (lossMin, pMin) ∧
      compute_loss id (fun _ _ => 0) false (NetOutput.plain [[-1, -1], [-2, -2]])
          (List.replicate 2 0) = some (lossMaj, pMaj) ∧
      lossMin = 7 * lossMaj :=
  loss_weight_ratio id (fun _ _ => 0) [[-1, -1], [-2, -2]] (by decide) (by norm_num)

/-! ## Claim C7: the output path -/

theorem pyRfind_of_not_mem (c : Char) :
    ∀ {s : List Char}, c ∉ s → pyRfind c s = -1 := by
  intro s
  induction s with
  | nil => intro _; rfl
  | cons a rest ih =>
    intro h
    have ha : ¬(a = c) := fun hac => h (by simp [hac])
    have hrest : pyRfind c rest = -1 := ih (fun hc => h (by simp [hc]))
    simp [pyRfind, hrest, ha]

/-- `str.rfind` finds the LAST occurrence: the string splits as
`t ++ c :: u` with `c` absent from `u`, and `rfind` returns `t.length`. -/
theorem pyRfind_spec (c : Char) :
    ∀ {s : List Char}, c ∈ s →
      ∃ t u, s = t ++ c :: u ∧ c ∉ u ∧ pyRfind c s = (t.length : ℤ) := by
  intro s
  induction s with
  | nil => intro h; simp at h
  | cons a rest ih =>
    intro h
    by_cases hr : c ∈ rest
    · obtain ⟨t, u, hs, hu, hfind⟩ := ih hr
      refine ⟨a :: t, u, by simp [hs], hu, ?_⟩
      have hge : (0 : ℤ) ≤ pyRfind c rest := by rw [hfind]; positivity
      simp [pyRfind, hfind, hge]
    · have hac : a = c := by
        rcases List.mem_cons.mp h with h1 | h1
        · exact h1.symm
        · exact absurd h1 hr
      have hrest : pyRfind c rest = -1 := pyRfind_of_not_mem c hr
      exact ⟨[], rest, by simp [hac], hr, by simp [pyRfind, hrest, hac]⟩

/-- C7: for every checkpoint path containing a directory separator, the
profile generator's save path is the checkpoint path truncated at its
last separator with the fixed file name appended; equivalently, the
serialized mapping goes to the file named by `profileFileName` inside the
directory containing the checkpoint file. -/
theorem save_path_checkpoint_dir (path : List Char) (h : '/' ∈ path) :
    ∃ t u, path = t ++ '/' :: u ∧ '/' ∉ u ∧
      SAVE_PATH path = t ++ profileFileName.data := by
  obtain ⟨t, u, hs, hu, hfind⟩ := pyRfind_spec '/' h
  refine ⟨t, u, hs, hu, ?_⟩
  have htake : pySliceTo path (pyRfind '/' path) = t := by
    rw [hfind, pySliceTo, if_pos (by positivity), Int.toNat_natCast, hs, List.take_left]
  rw [SAVE_PATH, htake]

/-- Witness for C7 at a concrete checkpoint path. -/
theorem save_path_checkpoint_dir_witness :
    ∃ t u, ("outputs/checkpoint_best.pt").data = t ++ '/' :: u ∧ '/' ∉ u ∧
      SAVE_PATH ("outputs/checkpoint_best.pt").data = t ++ profileFileName.data :=
  save_path_checkpoint_dir ("outputs/checkpoint_best.pt").data (by decide)

/-! ## Claim C1: the stored profile is the order-independent mean -/

/-- The fold of the generation loop accumulates, for each identifier,
exactly the embeddings of the observations carrying that identifier, in
stream order. -/
theorem foldl_addObs (k : String) :
    ∀ (obs : List (String × List ℚ)) (m : String → List (List ℚ)),
      (obs.foldl addObs m) k = m k ++ (obs.filter (fun o => o.1 == k)).map Prod.snd := by
  intro obs
  induction obs with
  | nil => intro m; simp
  | cons o rest ih =>
    intro m
    rw [List.foldl_cons, ih, List.filter_cons]
    by_cases h : o.1 = k
    · simp [addObs, h]
    · simp [addObs, h]

theorem profilesAcc_eq_filter (obs : List (String × List ℚ)) (k : String) :
    profilesAcc obs k = (obs.filter (fun o => o.1 == k)).map Prod.snd := by
  rw [profilesAcc, foldl_addObs]
  simp

theorem vecSum_length {d : ℕ} :
    ∀ {l : List (List ℚ)}, (∀ v ∈ l, v.length = d) → l ≠ [] → (vecSum l).length = d := by
  intro l
  induction l with
  | nil => intro _ hne; exact absurd rfl hne
  | cons v rest ih =>
    intro h _
    cases rest with
    | nil => simpa [vecSum] using h v (by simp)
    | cons w rs =>
      have hr := ih (fun x hx => h x (by simp [hx])) (by simp)
      have hv := h v (by simp)
      simp [vecSum, hv, hr]

/-- Each coordinate of the stacked sum is the sum of that coordinate over
the stacked vectors. -/
theorem vecSum_getElem {d : ℕ} :
    ∀ {l : List (List ℚ)}, (∀ v ∈ l, v.length = d) → l ≠ [] →
      ∀ p, p < d → (vecSum l)[p]? = some ((l.map (fun v => v.getD p 0)).sum) := by
  intro l
  induction l with
  | nil => intro _ hne; exact absurd rfl hne
  | cons v rest ih =>
    intro h _ p hp
    have hv := h v (by simp)
    have hpv : p < v.length := hv ▸ hp
    cases rest with
    | nil =>
      simp [vecSum, List.getElem?_eq_getElem hpv, List.getD_eq_getElem?_getD]
    | cons w rs =>
      have hrest := ih (fun x hx => h x (by simp [hx])) (by simp) p hp
      rw [show vecSum (v :: w :: rs) = List.zipWith (· + ·) v (vecSum (w :: rs)) from rfl,
        List.getElem?_zipWith, List.getElem?_eq_getElem hpv, hrest]
      simp [List.getD_eq_getElem?_getD, List.getElem?_eq_getElem hpv]

/-- The stacked sum is invariant under permuting the stacked vectors. -/
theorem vecSum_perm {d : ℕ} {l l2 : List (List ℚ)} (hperm : l.Perm l2)
    (hd : ∀ v ∈ l, v.length = d) : vecSum l = vecSum l2 := by
  cases l with
  | nil => rw [hperm.symm.eq_nil]
  | cons v rest =>
    have hne : (v :: rest) ≠ ([] : List (List ℚ)) := by simp
    have hne2 : l2 ≠ [] := by
      intro h2
      rw [h2] at hperm
      exact hne hperm.eq_nil
    have hd2 : ∀ x ∈ l2, x.length = d := fun x hx => hd x (hperm.mem_iff.mpr hx)
    apply List.ext_getElem?
    intro p
    by_cases hp : p < d
    · rw [vecSum_getElem hd hne p hp, vecSum_getElem hd2 hne2 p hp]
      exact congrArg some ((hperm.map (fun v => v.getD p 0)).sum_eq)
    · rw [List.getElem?_eq_none, List.getElem?_eq_none]
      · rw [vecSum_length hd2 hne2]; omega
      · rw [vecSum_length hd hne]; omega

/-- C1: for every identifier, the profile stored at the end of the
generation pass is the elementwise mean of all embedding vectors
accumulated for that identifier; the result is independent of the order
in which the observations are processed; and the worked example — two
observations with embeddings `[1,1]` and `[3,3]` for one identifier —
yields the stored profile `[2,2]`. -/
theorem profile_mean_correct (obs obs2 : List (String × List ℚ)) (k : String) (d : ℕ)
    (hperm : obs.Perm obs2)
    (hd : ∀ o ∈ obs, o.1 = k → o.2.length = d)
    (hocc : ∃ o ∈ obs, o.1 = k) :
    (∃ prof, profileFinal obs k = some prof ∧ prof.length = d ∧
      ∀ p, p < d →
        prof[p]? = some
          (((obs.filter (fun o => o.1 == k)).map (fun o => o.2.getD p 0)).sum
            / ((obs.filter (fun o => o.1 == k)).length : ℚ))) ∧
    profileFinal obs k = profileFinal obs2 k ∧
    profileFinal [(idA, [1, 1]), (idA, [3, 3])] idA = some [2, 2] := by
  obtain ⟨o0, ho0, hk0⟩ := hocc
  have hmemA : o0.2 ∈ profilesAcc obs k := by
    rw [profilesAcc_eq_filter]
    exact List.mem_map_of_mem Prod.snd (List.mem_filter.mpr ⟨ho0, by simp [hk0]⟩)
  have hAne : profilesAcc obs k ≠ [] := List.ne_nil_of_mem hmemA
  have hdA : ∀ v ∈ profilesAcc obs k, v.length = d := by
    intro v hv
    rw [profilesAcc_eq_filter] at hv
    obtain ⟨o, ho, rfl⟩ := List.mem_map.mp hv
    have := List.mem_filter.mp ho
    exact hd o this.1 (by simpa using this.2)
  refine ⟨⟨vecMean (profilesAcc obs k), ?_, ?_, ?_⟩, ?_, ?_⟩
  · rw [profileFinal, if_neg hAne]
  · rw [vecMean, List.length_map]
    exact vecSum_length hdA hAne
  · intro p hp
    rw [vecMean, List.getElem?_map, vecSum_getElem hdA hAne p hp]
    rw [profilesAcc_eq_filter]
    simp only [List.map_map, List.length_map]
    rfl
  · have hpermA : (profilesAcc obs k).Perm (profilesAcc obs2 k) := by
      rw [profilesAcc_eq_filter, profilesAcc_eq_filter]
      exact (hperm.filter (fun o => o.1 == k)).map Prod.snd
    have hA2ne : profilesAcc obs2 k ≠ [] := by
      intro h2
      rw [h2] at hpermA
      exact hAne hpermA.eq_nil
    rw [profileFinal, profileFinal, if_neg hAne, if_neg hA2ne]
    rw [vecMean, vecMean, vecSum_perm hpermA hdA, hpermA.length_eq]
  · norm_num [profileFinal, profilesAcc, addObs, idA, vecMean, vecSum]
    intro hcontra
    simp at hcontra

/-- Witness for C1: the two-observation example, processed in both
orders. -/
theorem profile_mean_correct_witness :
    profileFinal [(idA, [1, 1]), (idA, [3, 3])] idA
        = profileFinal [(idA, [3, 3]), (idA, [1, 1])] idA ∧
    profileFinal [(idA, [1, 1]), (idA, [3, 3])] idA = some [2, 2] := by
  have h := profile_mean_correct [(idA, [1, 1]), (idA, [3, 3])]
    [(idA, [3, 3]), (idA, [1, 1])] idA 2
    (List.Perm.swap _ _ _) (by decide) ⟨(idA, [1, 1]), by simp, rfl⟩
  exact ⟨h.2.1, h.2.2⟩

/-! ## Claims C3 and C10: the collation step -/

theorem le_foldl_max (l : List ℕ) :
    ∀ a : ℕ, a ≤ l.foldl Nat.max a ∧ ∀ x ∈ l, x ≤ l.foldl Nat.max a := by
  induction l with
  | nil => intro a; simp
  | cons b bs ih =>
    intro a
    have h := ih (Nat.max a b)
    refine ⟨le_trans (Nat.le_max_left a b) h.1, ?_⟩
    intro x hx
    rcases List.mem_cons.mp hx with rfl | hx2
    · exact le_trans (Nat.le_max_right a x) h.1
    · exact h.2 x hx2

theorem len_le_maxLen {data : List Item} {d : Item} (hd : d ∈ data) :
    d.len ≤ maxLen data :=
  (le_foldl_max (data.map Item.len) 0).2 d.len (List.mem_map_of_mem Item.len hd)

/-- Inverting a successful run of the per-example loop body. -/
theorem padExample_some {n_ftrs max_len : ℕ} {d : Item}
    {pr : List (List ℚ) × List ℕ} (h : padExample n_ftrs max_len d = some pr) :
    d.x.rows.length = n_ftrs ∧ d.x.cols ≤ max_len ∧
    pr = (d.x.rows.map (fun r => r ++ List.replicate (max_len - d.x.cols) 0),
          List.replicate d.x.cols 1 ++ List.replicate (max_len - d.x.cols) 0) := by
  by_cases hg : d.x.rows.length = n_ftrs ∧ d.x.cols ≤ max_len
  · rw [padExample, if_pos hg] at h
    exact ⟨hg.1, hg.2, (Option.some_injective _ h).symm⟩
  · rw [padExample, if_neg hg] at h
    cases h

/-- The per-example loop body succeeds whenever the example has the
expected row count and fits inside the batch maximum. -/
theorem padExample_total {n_ftrs max_len : ℕ} {d : Item}
    (hj : d.x.rows.length = n_ftrs) (hk : d.x.cols ≤ max_len) :
    padExample n_ftrs max_len d
      = some (d.x.rows.map (fun r => r ++ List.replicate (max_len - d.x.cols) 0),
              List.replicate d.x.cols 1 ++ List.replicate (max_len - d.x.cols) 0) := by
  simp only [padExample]
  rw [if_pos ⟨hj, hk⟩]

/-- Inverting a successful run of `collate_fn`. -/
theorem collate_fn_some {data : List Item} {out : CollateOut}
    (hout : collate_fn data = some out) :
    ∃ d0 rest padded, data = d0 :: rest ∧
      mapOption (padExample d0.x.rows.length (maxLen data)) data = some padded ∧
      out.features = padded.map Prod.fst ∧ out.mask = padded.map Prod.snd ∧
      out.ids = data.map Item.id ∧ out.labels = data.map Item.y := by
  cases data with
  | nil => cases hout
  | cons d0 rest =>
    simp only [collate_fn] at hout
    cases hmo : mapOption (padExample d0.x.rows.length (maxLen (d0 :: rest))) (d0 :: rest) with
    | none => rw [hmo] at hout; cases hout
    | some padded =>
      rw [hmo] at hout
      obtain rfl := Option.some_injective _ hout
      exact ⟨d0, rest, padded, rfl, hmo, rfl, rfl, rfl, rfl⟩

/-- C3: whenever `collate_fn` succeeds on a batch, each example's feature
values are copied unchanged into the padded features tensor (no position
of the original data is truncated), every position beyond the example's
original extent is zero, and the returned mask is 1 exactly at the
original (pre-pad) time positions and 0 at all padded positions. -/
theorem collate_pad_correct (data : List Item) (out : CollateOut)
    (hout : collate_fn data = some out) :
    ∀ (i : ℕ) (d : Item), data[i]? = some d →
      ∃ (feat : List (List ℚ)) (mas : List ℕ),
        out.features[i]? = some feat ∧ out.mask[i]? = some mas ∧
        feat.length = d.x.rows.length ∧
        (∀ (r : ℕ) (row : List ℚ), d.x.rows[r]? = some row →
          ∃ frow : List ℚ, feat[r]? = some frow ∧ frow.length = maxLen data ∧
            (∀ p : ℕ, p < d.x.cols → frow[p]? = row[p]?) ∧
            (∀ p : ℕ, d.x.cols ≤ p → p < maxLen data → frow[p]? = some 0)) ∧
        mas.length = maxLen data ∧
        (∀ p : ℕ, p < maxLen data → mas[p]? = some (if p < d.x.cols then 1 else 0)) := by
  obtain ⟨d0, rest, padded, rfl, hmo, hfe, hma, _, _⟩ := collate_fn_some hout
  intro i d hi
  obtain ⟨pr, hpr, hpe⟩ := mapOption_getElem hmo i d hi
  obtain ⟨_, hk, rfl⟩ := padExample_some hpe
  refine ⟨_, _, by rw [hfe, List.getElem?_map, hpr]; rfl,
    by rw [hma, List.getElem?_map, hpr]; rfl, by simp, ?_, ?_, ?_⟩
  · intro r row hrow
    have hrowmem : row ∈ d.x.rows := List.getElem?_mem hrow
    have hrlen : row.length = d.x.cols := d.x.rect row hrowmem
    refine ⟨row ++ List.replicate (maxLen (d0 :: rest) - d.x.cols) 0,
      by rw [List.getElem?_map, hrow]; rfl, ?_, ?_, ?_⟩
    · simp [hrlen]
      omega
    · intro p hp
      rw [List.getElem?_append]
      rw [if_pos (by omega)]
    · intro p hp1 hp2
      rw [List.getElem?_append_right (by omega), List.getElem?_replicate,
        if_pos (by omega)]
  · simp
    omega
  · intro p hp
    by_cases hpk : p < d.x.cols
    · rw [List.getElem?_append, if_pos (by simp [hpk]), List.getElem?_replicate,
        if_pos (by simpa using hpk), if_pos hpk]
    · rw [List.getElem?_append_right (by simpa using Nat.le_of_not_lt hpk),
        List.getElem?_replicate]
      simp only [List.length_replicate]
      rw [if_pos (by omega), if_neg hpk]

/-- C10: on a non-empty batch in which every example's feature array has
the same number of rows as the first example's, `collate_fn` (applied to
the tuples `MyDataset` produces) totally succeeds — the shape-mismatch
error branch of the per-example copy is unreachable — and the features
tensor has shape (batch size, row count, maximum example length). -/
theorem collate_total_shapes (e0 : String × NpArray2D × ℤ)
    (rest : List (String × NpArray2D × ℤ))
    (hrows : ∀ e ∈ e0 :: rest, e.2.1.rows.length = e0.2.1.rows.length) :
    ∃ out, collate_fn ((e0 :: rest).map getItem) = some out ∧
      out.features.length = (e0 :: rest).length ∧
      ∀ f ∈ out.features, f.length = e0.2.1.rows.length ∧
        ∀ row ∈ f, row.length = maxLen ((e0 :: rest).map getItem) := by
  have hmap : (e0 :: rest).map getItem = getItem e0 :: rest.map getItem := by simp
  have htotal : ∀ d ∈ (e0 :: rest).map getItem,
      ∃ pr, padExample (getItem e0).x.rows.length (maxLen ((e0 :: rest).map getItem)) d
        = some pr := by
    intro d hd
    obtain ⟨e, he, rfl⟩ := List.mem_map.mp hd
    exact ⟨_, padExample_total (hrows e he) (len_le_maxLen hd)⟩
  obtain ⟨padded, hpadded⟩ := mapOption_total htotal
  refine ⟨{ ids := ((e0 :: rest).map getItem).map Item.id
            features := padded.map Prod.fst
            labels := ((e0 :: rest).map getItem).map Item.y
            mask := padded.map Prod.snd }, ?_, ?_, ?_⟩
  · rw [hmap, collate_fn]
    rw [hmap] at hpadded
    rw [hpadded]
    rfl
  · simp [mapOption_length hpadded]
  · intro f hf
    obtain ⟨pr, hpr, rfl⟩ := List.mem_map.mp hf
    obtain ⟨d, hd, hpe⟩ := mapOption_mem hpadded pr hpr
    obtain ⟨hj, hk, rfl⟩ := padExample_some hpe
    constructor
    · dsimp only
      rw [List.length_map, hj]
      rfl
    · intro row hrow
      dsimp only at hrow
      simp only [List.mem_map] at hrow
      obtain ⟨r, hr, rfl⟩ := hrow
      have hrlen := d.x.rect r hr
      rw [List.length_append, List.length_replicate, hrlen]
      omega

/-- Witness for C3 on a concrete two-example batch, instantiated at the
first (shorter, hence padded) example. -/
theorem collate_pad_correct_witness :
    ∃ (feat : List (List ℚ)) (mas : List ℕ),
      outW.features[0]? = some feat ∧ outW.mask[0]? = some mas ∧
      feat.length = (getItem ("u1", arrA, 0)).x.rows.length ∧
      (∀ (r : ℕ) (row : List ℚ), (getItem ("u1", arrA, 0)).x.rows[r]? = some row →
        ∃ frow : List ℚ, feat[r]? = some frow ∧ frow.length = maxLen batchW ∧
          (∀ p : ℕ, p < (getItem ("u1", arrA, 0)).x.cols → frow[p]? = row[p]?) ∧
          (∀ p : ℕ, (getItem ("u1", arrA, 0)).x.cols ≤ p → p < maxLen batchW →
            frow[p]? = some 0)) ∧
      mas.length = maxLen batchW ∧
      (∀ p : ℕ, p < maxLen batchW →
        mas[p]? = some (if p < (getItem ("u1", arrA, 0)).x.cols then 1 else 0)) :=
  collate_pad_correct batchW outW rfl 0 (getItem ("u1", arrA, 0)) rfl

/-- Witness for C10 on the same concrete batch. -/
theorem collate_total_shapes_witness :
    ∃ out,
      collate_fn ((([("u1", arrA, 0), ("u2", arrB, 1)]) :
          List (String × NpArray2D × ℤ)).map getItem) = some out ∧
      out.features.length
          = (([("u1", arrA, 0), ("u2", arrB, 1)]) : List (String × NpArray2D × ℤ)).length ∧
      ∀ f ∈ out.features, f.length = arrA.rows.length ∧
        ∀ row ∈ f, row.length
          = maxLen ((([("u1", arrA, 0), ("u2", arrB, 1)]) :
              List (String × NpArray2D × ℤ)).map getItem) :=
  collate_total_shapes ("u1", arrA, 0) [("u2", arrB, 1)] (by decide)

/-! ## Claim C9: the logging-output length invariant of `forward` -/

theorem extractPredicts_length {raw : List (List ℚ)} {ps : List ℚ}
    (h : extractPredicts raw = some ps) : ps.length = raw.length := by
  cases raw with
  | nil =>
    have hnil : extractPredicts ([] : List (List ℚ)) = some [] := rfl
    rw [hnil] at h
    obtain rfl := Option.some_injective _ h
    rfl
  | cons r1 rest =>
    cases rest with
    | nil =>
      have h1 : extractPredicts [r1]
          = if 1 < r1.length then some [r1.getD 1 0] else none := rfl
      rw [h1] at h
      by_cases hc : 1 < r1.length
      · rw [if_pos hc] at h
        obtain rfl := Option.some_injective _ h
        rfl
      · rw [if_neg hc] at h; cases h
    | cons r2 rs =>
      have h2 : extractPredicts (r1 :: r2 :: rs)
          = if (r1 :: r2 :: rs).all (fun row => decide (1 < row.length)) then
              some ((r1 :: r2 :: rs).map (fun row => row.getD 1 0))
            else none := rfl
      rw [h2] at h
      by_cases hc : (r1 :: r2 :: rs).all (fun row => decide (1 < row.length))
      · rw [if_pos hc] at h
        obtain rfl := Option.some_injective _ h
        simp
      · rw [if_neg hc] at h; cases h

theorem nll_loss_sum_some_length {lprobs : List (List ℚ)} {target : List ℕ}
    {w : List ℚ} {l : ℚ} (h : nll_loss_sum lprobs target w = some l) :
    target.length = lprobs.length := by
  by_cases hc : target.length = lprobs.length
  · exact hc
  · rw [nll_loss_sum, if_neg hc] at h; cases h

/-- Inverting a successful non-auxiliary `compute_loss`. -/
theorem compute_loss_plain_inv {gnp : List (List ℚ) → List (List ℚ)}
    {sc : List ℚ → List ℚ → ℚ} {logits : List (List ℚ)} {target : List ℕ}
    {l : ℚ} {preds tgt : List ℕ}
    (h : compute_loss gnp sc false (NetOutput.plain logits) target = some (l, preds, tgt)) :
    tgt = target ∧ target.length = (gnp logits).length := by
  simp only [compute_loss] at h
  cases hn : nll_loss_sum (gnp logits) target nllWeight with
  | none => rw [hn] at h; cases h
  | some a =>
    rw [hn] at h
    obtain h2 := Option.some_injective _ h
    exact ⟨(congrArg (fun t => t.2.2) h2).symm, nll_loss_sum_some_length hn⟩

/-- C9: whenever `forward` succeeds (in particular the model output has a
class-1 column, covering both the single-example special branch and the
general branch), the logging output's `predicts` list and `targets` list
each have length equal to its `nsentences` field, the batch's example
count. -/
theorem forward_logging_invariant (gnp softmax : List (List ℚ) → List (List ℚ))
    (sc : List ℚ → List ℚ → ℚ) (sentence_avg encoder_contrastive : Bool)
    (net_output : NetOutput) (target : List ℕ) (ntokens : ℕ)
    (hgnp : ∀ m, (gnp m).length = m.length)
    (hsm : ∀ m, (softmax m).length = m.length)
    (l : ℚ) (ss : ℕ) (lo : LoggingOutput)
    (hfwd : forward gnp softmax sc sentence_avg encoder_contrastive net_output target
      ntokens = some (l, ss, lo)) :
    lo.predicts.length = lo.nsentences ∧ lo.targets.length = lo.nsentences := by
  cases net_output with
  | withAux a b c dd e =>
    cases hcl : compute_loss gnp sc encoder_contrastive (NetOutput.withAux a b c dd e)
        target with
    | none => rw [forward, hcl] at hfwd; cases hfwd
    | some v =>
      obtain ⟨loss, preds, tgt⟩ := v
      rw [forward, hcl] at hfwd
      dsimp only at hfwd
      cases hfwd
  | plain logits =>
    cases encoder_contrastive with
    | true =>
      rw [forward,
        show compute_loss gnp sc true (NetOutput.plain logits) target = none from rfl] at hfwd
      cases hfwd
    | false =>
      cases hcl : compute_loss gnp sc false (NetOutput.plain logits) target with
      | none => rw [forward, hcl] at hfwd; cases hfwd
      | some v =>
        obtain ⟨loss, preds, tgt⟩ := v
        rw [forward, hcl] at hfwd
        dsimp only at hfwd
        cases hep : extractPredicts (softmax logits) with
        | none => rw [hep] at hfwd; cases hfwd
        | some predicts =>
          rw [hep] at hfwd
          obtain h2 := Option.some_injective _ hfwd
          obtain ⟨htgt, hlen⟩ := compute_loss_plain_inv hcl
          have hlo := (congrArg (fun t => t.2.2) h2).symm
          dsimp only at hlo
          rw [hlo]
          dsimp only
          constructor
          · rw [extractPredicts_length hep, hsm logits, ← hgnp logits, ← hlen]
          · rw [htgt]

/-- Witness for C9 at a concrete single-example batch. -/
theorem forward_logging_invariant_witness :
    (⟨14, 3, 1, 1, 0, [-2], [1]⟩ : LoggingOutput).predicts.length
        = (⟨14, 3, 1, 1, 0, [-2], [1]⟩ : LoggingOutput).nsentences ∧
    (⟨14, 3, 1, 1, 0, [-2], [1]⟩ : LoggingOutput).targets.length
        = (⟨14, 3, 1, 1, 0, [-2], [1]⟩ : LoggingOutput).nsentences :=
  forward_logging_invariant id id (fun _ _ => 0) true false
    (NetOutput.plain [[-1, -2]]) [1] 3 (fun _ => rfl) (fun _ => rfl)
    14 1 ⟨14, 3, 1, 1, 0, [-2], [1]⟩
    (by norm_num [forward, compute_loss, nll_loss_sum, mapOption, nllWeight, argmaxIdx,
      extractPredicts])

end RoPADet
